import Mathlib

/-!
Shallow embedding of the method-resolution core of the `plum` repository:
`src/plum/resolver.py` (class `Resolver` with `register`, `__len__`, `resolve`,
`_find_signature`, `_handle_not_found_lookup_error`) and the comparison mixin
`Comparable` of `src/plum/util.py`.

The external `Signature` abstraction (module `plum.signature`, not part of the
sources) is modelled, following the spec, as an abstract type `σ` together with
the operations the resolver calls on it: the primitive less-or-equal relation
(`__le__` / `encompasses`), the concrete-argument match predicate, precedence,
faithfulness, implementation handle, return type, and the equality used by
`register`.  The derived comparisons (`==`, `<`, `>`, `is_comparable`) are the
ones produced by the `Comparable` mixin of `src/plum/util.py`, which is in the
sources and is embedded verbatim below.
-/

namespace Plum

/-- Embedding of `Comparable.__eq__` of `plum/util.py`: `self <= other <= self`,
parametrized by the primitive `__le__` operation `le`. -/
def Comparable.eq {σ : Type} (le : σ → σ → Bool) (a b : σ) : Bool :=
  le a b && le b a

/-- Embedding of `Comparable.__ne__`: `not self == other`. -/
def Comparable.ne {σ : Type} (le : σ → σ → Bool) (a b : σ) : Bool :=
  !(Comparable.eq le a b)

/-- Embedding of `Comparable.__lt__`: `self <= other and self != other`. -/
def Comparable.lt {σ : Type} (le : σ → σ → Bool) (a b : σ) : Bool :=
  le a b && Comparable.ne le a b

/-- Embedding of `Comparable.__ge__`: `other.__le__(self)`. -/
def Comparable.ge {σ : Type} (le : σ → σ → Bool) (a b : σ) : Bool :=
  le b a

/-- Embedding of `Comparable.__gt__`: `self >= other and self != other`. -/
def Comparable.gt {σ : Type} (le : σ → σ → Bool) (a b : σ) : Bool :=
  Comparable.ge le a b && Comparable.ne le a b

/-- Embedding of `Comparable.is_comparable`:
`self < other or self == other or self > other`. -/
def Comparable.is_comparable {σ : Type} (le : σ → σ → Bool) (a b : σ) : Bool :=
  Comparable.lt le a b || Comparable.eq le a b || Comparable.gt le a b

/-- Reflexivity of a primitive less-or-equal relation. -/
abbrev LeRefl {σ : Type} (le : σ → σ → Bool) : Prop :=
  ∀ a, le a a = true

/-- Transitivity of a primitive less-or-equal relation. -/
abbrev LeTrans {σ : Type} (le : σ → σ → Bool) : Prop :=
  ∀ a b c, le a b = true → le b c = true → le a c = true

/-- Operations the resolver requires of the external `Signature` abstraction
(`plum.signature`, not in the sources; modelled from the spec's signature
contract).  `le` is `__le__` (encompassment), `matchArgs` is `Signature.match`,
`beq` is the `__eq__` used by `Resolver.register`. -/
structure SigAPI (σ π ι τ : Type) where
  le : σ → σ → Bool
  matchArgs : σ → π → Bool
  precedence : σ → Int
  is_faithful : σ → Bool
  implementation : σ → ι
  return_type : σ → τ
  beq : σ → σ → Bool

/-- A member of a class `__dict__`, as the ancestor fallback observes it:
its abstractness marker (`__isabstractmethod__`), its boolean value
(Python truthiness, tested by `if not method`), and an identity tag. -/
structure PyMember where
  isabstractmethod : Bool
  truthy : Bool
  ident : Nat
deriving DecidableEq

/-- A class in the owner's method resolution order: an identity tag and its
own `__dict__` (mapping member names to members). -/
structure PyClass where
  ident : Nat
  dict : List (String × PyMember)
deriving DecidableEq

/-- Identity tag reserved for the root class `object`. -/
def objectId : Nat := 0

/-- Identity tag reserved for the metaclass root `type`. -/
def typeId : Nat := 1

/-- The owning class of a resolver: carries its `__mro__` (the class itself
first, then its linearized ancestors). -/
structure PyOwner where
  mro : List PyClass
deriving DecidableEq

/-- State of `Resolver` (`plum/resolver.py`): registered signatures, the
aggregate faithfulness flag, the optional owning class, and the name of the
resolved function. -/
structure Resolver (σ : Type) where
  signatures : List σ
  is_faithful : Bool
  owner : Option PyOwner
  function_name : String
deriving DecidableEq

/-- A class the ancestor-fallback loop passes over without stopping: a root
class (`object` or `type`), a class not declaring the name in its own
`__dict__`, or one declaring it abstract. -/
def skippedClass (function_name : String) (c : PyClass) : Prop :=
  (c.ident = objectId ∨ c.ident = typeId) ∨
  c.dict.lookup function_name = none ∨
  (∃ m, c.dict.lookup function_name = some m ∧ m.isabstractmethod = true)

/-- A resolution target: either a tuple of concrete arguments or an abstract
signature to be encompassed (`resolve` branches on `isinstance(target, tuple)`). -/
inductive Target (π σ : Type) where
  | args (xs : π)
  | sig (t : σ)

/-- The two lookup errors of `plum/resolver.py`.  `ambiguous` carries, as the
exception message does, the list of tied candidates with their precedences in
discovery order. -/
inductive LookupErr (σ : Type) where
  | notFound
  | ambiguous (listed : List (σ × Int))
deriving DecidableEq

/-- The implementation handle returned by `resolve`: either a registered
signature's implementation or a member found by the ancestor fallback. -/
inductive ResolvedImpl (ι : Type) where
  | sigImpl (impl : ι)
  | inherited (m : PyMember)
deriving DecidableEq

/-- The return type returned by `resolve`: either a signature's declared
return type or the unconstrained `object` used by the ancestor fallback. -/
inductive ResolvedType (τ : Type) where
  | declared (t : τ)
  | objectType
deriving DecidableEq

/-- The applicability check of `_find_signature`: `s.match(target)` for a
tuple of concrete arguments, `target <= s` for an abstract signature. -/
def checkFor {σ π ι τ : Type} (api : SigAPI σ π ι τ) (target : Target π σ)
    (s : σ) : Bool :=
  match target with
  | .args xs => api.matchArgs s xs
  | .sig t => api.le t s

/-- One iteration of the candidate-reduction loop of `_find_signature`
(`plum/resolver.py`, the loop body over the applicable signatures). -/
def reduceStep {σ : Type} (le : σ → σ → Bool) (candidates : List σ)
    (signature : σ) : List σ :=
  if !(candidates.any fun c => Comparable.is_comparable le c signature) then
    candidates ++ [signature]
  else
    let new_candidates :=
      candidates.filter fun c => !(Comparable.lt le signature c)
    if candidates.any fun c => le signature c then
      new_candidates ++ [signature]
    else
      new_candidates

/-- The whole candidate-reduction loop of `_find_signature`, processing the
applicable signatures in registration order starting from no candidates. -/
def frontierReduce {σ : Type} (le : σ → σ → Bool) (applicable : List σ) :
    List σ :=
  applicable.foldl (reduceStep le) []

/-- The applicable signatures of a resolver for a target, in registration
order (`[s for s in self.signatures if check(s)]`). -/
def applicableOf {σ π ι τ : Type} (api : SigAPI σ π ι τ) (r : Resolver σ)
    (target : Target π σ) : List σ :=
  r.signatures.filter (checkFor api target)

/-- The final candidate list of `_find_signature` for a target. -/
def candidatesOf {σ π ι τ : Type} (api : SigAPI σ π ι τ) (r : Resolver σ)
    (target : Target π σ) : List σ :=
  frontierReduce api.le (applicableOf api r target)

/-- Maximum of a list of integers, as Python's `max` on a nonempty list. -/
def listMax : List Int → Int
  | [] => 0
  | [p] => p
  | p :: q :: rest => max p (listMax (q :: rest))

/-- Embedding of `Resolver._find_signature`: reduce the applicable signatures
to the maximal-specificity candidates, then decide: zero candidates raise
`NotFoundLookupError`; one is returned; several are tie-broken by precedence,
raising `AmbiguousLookupError` when no unique maximum-precedence candidate
exists. -/
def find_signature {σ π ι τ : Type} (api : SigAPI σ π ι τ) (r : Resolver σ)
    (target : Target π σ) : Except (LookupErr σ) σ :=
  match candidatesOf api r target with
  | [] => .error .notFound
  | [c] => .ok c
  | c :: c2 :: rest =>
    let candidates := c :: c2 :: rest
    let precedences := candidates.map api.precedence
    let maxPrec := listMax precedences
    if precedences.count maxPrec = 1 then
      .ok (candidates.getD (precedences.indexOf maxPrec) c)
    else
      .error (.ambiguous (candidates.map fun x => (x, api.precedence x)))

/-- Embedding of the `for c in self.owner.__mro__[1:]` loop of
`_handle_not_found_lookup_error`: skip `object` and `type`, skip ancestors
whose own `__dict__` lacks the function name, reset and continue on abstract
members, and stop at the first remaining member. -/
def mroWalk (function_name : String) : List PyClass → Option PyMember
  | [] => none
  | c :: rest =>
    if c.ident = objectId ∨ c.ident = typeId then
      mroWalk function_name rest
    else
      match c.dict.lookup function_name with
      | none => mroWalk function_name rest
      | some method =>
        if method.isabstractmethod then
          mroWalk function_name rest
        else
          some method

/-- Embedding of `Resolver._handle_not_found_lookup_error`: re-raise when the
resolver has no owner; otherwise walk the owner's MRO past the owner itself;
after the loop, `if not method` re-raises the original error, else the method
is returned with the unconstrained return type `object`. -/
def handle_not_found_lookup_error {σ ι τ : Type} (r : Resolver σ)
    (ex : LookupErr σ) :
    Except (LookupErr σ) (ResolvedImpl ι × ResolvedType τ) :=
  match r.owner with
  | none => .error ex
  | some owner =>
    match mroWalk r.function_name (owner.mro.drop 1) with
    | none => .error ex
    | some method =>
      if method.truthy then
        .ok (.inherited method, .objectType)
      else
        .error ex

/-- Embedding of `Resolver.resolve`: return the found signature's
implementation and return type; on `NotFoundLookupError` delegate to
`_handle_not_found_lookup_error`; `AmbiguousLookupError` propagates. -/
def resolve {σ π ι τ : Type} (api : SigAPI σ π ι τ) (r : Resolver σ)
    (target : Target π σ) :
    Except (LookupErr σ) (ResolvedImpl ι × ResolvedType τ) :=
  match find_signature api r target with
  | .ok signature =>
    .ok (.sigImpl (api.implementation signature),
      .declared (api.return_type signature))
  | .error .notFound => handle_not_found_lookup_error r .notFound
  | .error (.ambiguous listed) => .error (.ambiguous listed)

/-- Embedding of `Resolver.register`: compare the new signature for equality
against every registered one; more than one match aborts with an assertion
error; exactly one match replaces that entry in place; no match appends; in
both success cases the aggregate faithfulness flag is recomputed as
`not any(not s.is_faithful for s in self.signatures)`. -/
def register {σ π ι τ : Type} (api : SigAPI σ π ι τ) (r : Resolver σ)
    (signature : σ) : Except String (Resolver σ) :=
  let existing := r.signatures.map fun s => api.beq s signature
  if existing.any id then
    if existing.count true ≠ 1 then
      .error "The added signature is equal to several existing signatures. This should never happen."
    else
      let sigs := r.signatures.set (existing.indexOf true) signature
      .ok { r with
        signatures := sigs
        is_faithful := !(sigs.any fun s => !(api.is_faithful s)) }
  else
    let sigs := r.signatures ++ [signature]
    .ok { r with
      signatures := sigs
      is_faithful := !(sigs.any fun s => !(api.is_faithful s)) }

/-- Embedding of `Resolver.__len__`. -/
def length {σ : Type} (r : Resolver σ) : Nat :=
  r.signatures.length

/-- State-threaded embedding of `_find_signature`: the method reads the
resolver but contains no assignment to `self`, so the state it passes on is
the state it received. -/
def find_signatureS {σ π ι τ : Type} (api : SigAPI σ π ι τ) (r : Resolver σ)
    (target : Target π σ) : Except (LookupErr σ) σ × Resolver σ :=
  (find_signature api r target, r)

/-- State-threaded embedding of `_handle_not_found_lookup_error`: the method
reads `self.owner` and `self.function_name` but assigns no attribute. -/
def handle_not_found_lookup_errorS {σ ι τ : Type} (r : Resolver σ)
    (ex : LookupErr σ) :
    Except (LookupErr σ) (ResolvedImpl ι × ResolvedType τ) × Resolver σ :=
  (handle_not_found_lookup_error r ex, r)

/-- State-threaded embedding of `Resolver.resolve`, composing the
state-threaded sub-calls exactly as the source composes the methods. -/
def resolveS {σ π ι τ : Type} (api : SigAPI σ π ι τ) (r : Resolver σ)
    (target : Target π σ) :
    Except (LookupErr σ) (ResolvedImpl ι × ResolvedType τ) × Resolver σ :=
  match find_signatureS api r target with
  | (.ok signature, r1) =>
    (.ok (.sigImpl (api.implementation signature),
      .declared (api.return_type signature)), r1)
  | (.error .notFound, r1) => handle_not_found_lookup_errorS r1 .notFound
  | (.error (.ambiguous listed), r1) => (.error (.ambiguous listed), r1)

/-- A chain-ordered test instance of the signature contract on `Fin 3`:
`le` is the numeric order, every signature matches every argument. -/
def chainApi : SigAPI (Fin 3) Nat Nat Nat where
  le := fun a b => decide (a.val ≤ b.val)
  matchArgs := fun _ _ => true
  precedence := fun a => (a.val : Int)
  is_faithful := fun a => decide (a.val ≠ 2)
  implementation := fun a => a.val
  return_type := fun a => a.val + 100
  beq := fun a b => decide (a = b)

/-- A discretely-ordered test instance on `Fin 3`: distinct signatures are
incomparable, and a signature matches exactly the argument with its value. -/
def flatApi : SigAPI (Fin 3) Nat Nat Nat where
  le := fun a b => decide (a = b)
  matchArgs := fun s n => decide (s.val = n)
  precedence := fun _ => 0
  is_faithful := fun _ => true
  implementation := fun a => a.val
  return_type := fun a => a.val + 100
  beq := fun a b => decide (a = b)

/-- A discretely-ordered test instance on `Fin 3` where every signature
matches every argument and all precedences coincide. -/
def ambApi : SigAPI (Fin 3) Nat Nat Nat where
  le := fun a b => decide (a = b)
  matchArgs := fun _ _ => true
  precedence := fun _ => 0
  is_faithful := fun _ => true
  implementation := fun a => a.val
  return_type := fun a => a.val + 100
  beq := fun a b => decide (a = b)

/-- A discretely-ordered test instance on `Fin 3` where every signature
matches every argument and precedences are the values. -/
def precApi : SigAPI (Fin 3) Nat Nat Nat where
  le := fun a b => decide (a = b)
  matchArgs := fun _ _ => true
  precedence := fun a => (a.val : Int)
  is_faithful := fun _ => true
  implementation := fun a => a.val
  return_type := fun a => a.val + 100
  beq := fun a b => decide (a = b)

/-- A test resolver without an owning class. -/
def noOwnerResolver (sigs : List (Fin 3)) : Resolver (Fin 3) where
  signatures := sigs
  is_faithful := true
  owner := none
  function_name := "f"

/-- A falsy, non-abstract test member. -/
def fbMemberFalsy : PyMember := ⟨false, false, 7⟩

/-- A truthy, non-abstract test member. -/
def fbMemberTruthy : PyMember := ⟨false, true, 8⟩

/-- An abstract test member. -/
def fbMemberAbstract : PyMember := ⟨true, true, 9⟩

/-- A test ancestor declaring the operation as the falsy member. -/
def fbClassFalsy : PyClass := ⟨2, [("f", fbMemberFalsy)]⟩

/-- A test ancestor declaring the operation as the truthy member. -/
def fbClassTruthy : PyClass := ⟨3, [("f", fbMemberTruthy)]⟩

/-- A test ancestor declaring the operation as the abstract member. -/
def fbClassAbstract : PyClass := ⟨4, [("f", fbMemberAbstract)]⟩

/-- The test owning class itself, heading the MRO. -/
def fbChild : PyClass := ⟨5, []⟩

/-- A test resolver with no signatures owned by a class with the given MRO. -/
def ownedResolver (mro : List PyClass) : Resolver (Fin 3) where
  signatures := []
  is_faithful := true
  owner := some ⟨mro⟩
  function_name := "f"

/-- The resolver state expected after registering `0`, `1`, `2` on the chain
test instance: the aggregate faithfulness flag drops to `false` because the
signature `2` is unfaithful there. -/
def c7Expected : Resolver (Fin 3) where
  signatures := [0, 1, 2]
  is_faithful := false
  owner := none
  function_name := "f"

/-- Invariant of the candidate-reduction loop of `_find_signature`: over the
universe `all` of applicable signatures, after the signatures satisfying
`processed` have been folded in, the candidate list consists of processed,
applicable signatures forming an antichain for the strict order; every
processed signature missing from it is strictly dominated by a candidate; and
every processed signature dominated by nothing in `all` is a candidate. -/
def RInv {σ : Type} (le : σ → σ → Bool) (all : List σ) (processed : σ → Prop)
    (cands : List σ) : Prop :=
  (∀ c ∈ cands, processed c) ∧
  (∀ c ∈ cands, c ∈ all) ∧
  (∀ c ∈ cands, ∀ c2 ∈ cands, Comparable.lt le c c2 = false) ∧
  (∀ x, processed x → x ∉ cands → ∃ c ∈ cands, Comparable.lt le c x = true) ∧
  (∀ x, processed x → (∀ y ∈ all, Comparable.lt le y x = false) → x ∈ cands)

theorem Comparable.eq_iff {σ : Type} (le : σ → σ → Bool) (a b : σ) :
    Comparable.eq le a b = true ↔ (le a b = true ∧ le b a = true) := by
  cases hab : le a b <;> cases hba : le b a <;>
    simp [Comparable.eq, hab, hba]

theorem Comparable.lt_iff {σ : Type} (le : σ → σ → Bool) (a b : σ) :
    Comparable.lt le a b = true ↔ (le a b = true ∧ le b a = false) := by
  cases hab : le a b <;> cases hba : le b a <;>
    simp [Comparable.lt, Comparable.ne, Comparable.eq, hab, hba]

theorem Comparable.lt_irrefl {σ : Type} (le : σ → σ → Bool) (a : σ) :
    Comparable.lt le a a = false := by
  cases h : le a a <;>
    simp [Comparable.lt, Comparable.ne, Comparable.eq, h]

theorem Comparable.is_comparable_iff {σ : Type} (le : σ → σ → Bool) (a b : σ) :
    Comparable.is_comparable le a b = true ↔
      (le a b = true ∨ le b a = true) := by
  cases hab : le a b <;> cases hba : le b a <;>
    simp [Comparable.is_comparable, Comparable.lt, Comparable.ge,
      Comparable.gt, Comparable.ne, Comparable.eq, hab, hba]

theorem Comparable.lt_trans {σ : Type} (le : σ → σ → Bool)
    (htrans : LeTrans le) (a b c : σ)
    (hab : Comparable.lt le a b = true) (hbc : Comparable.lt le b c = true) :
    Comparable.lt le a c = true := by
  rw [Comparable.lt_iff] at hab hbc ⊢
  refine ⟨htrans a b c hab.1 hbc.1, ?_⟩
  cases hca : le c a
  · rfl
  · have : le c b = true := htrans c a b hca hab.1
    rw [hbc.2] at this
    simp at this

theorem Comparable.lt_of_lt_of_le {σ : Type} (le : σ → σ → Bool)
    (htrans : LeTrans le) (a b c : σ)
    (hab : Comparable.lt le a b = true) (hbc : le b c = true) :
    Comparable.lt le a c = true := by
  rw [Comparable.lt_iff] at hab ⊢
  refine ⟨htrans a b c hab.1 hbc, ?_⟩
  cases hca : le c a
  · rfl
  · have : le b a = true := htrans b c a hbc hca
    rw [hab.2] at this
    simp at this

theorem Comparable.lt_of_le_of_lt {σ : Type} (le : σ → σ → Bool)
    (htrans : LeTrans le) (a b c : σ)
    (hab : le a b = true) (hbc : Comparable.lt le b c = true) :
    Comparable.lt le a c = true := by
  rw [Comparable.lt_iff] at hbc ⊢
  refine ⟨htrans a b c hab hbc.1, ?_⟩
  cases hca : le c a
  · rfl
  · have : le c b = true := htrans c a b hca hab
    rw [hbc.2] at this
    simp at this

theorem Comparable.comparable_false {σ : Type} (le : σ → σ → Bool) (a b : σ)
    (h : Comparable.is_comparable le a b = false) :
    le a b = false ∧ le b a = false := by
  cases hab : le a b <;> cases hba : le b a <;>
    simp_all [Comparable.is_comparable, Comparable.lt, Comparable.ge,
      Comparable.gt, Comparable.ne, Comparable.eq]

theorem Comparable.lt_false_of_le_false {σ : Type} (le : σ → σ → Bool)
    (a b : σ) (h : le a b = false) : Comparable.lt le a b = false := by
  simp [Comparable.lt, h]

theorem rinv_congr {σ : Type} {le : σ → σ → Bool} {all : List σ}
    {processed processed2 : σ → Prop} {cands : List σ}
    (hiff : ∀ x, processed x ↔ processed2 x)
    (h : RInv le all processed cands) : RInv le all processed2 cands := by
  obtain ⟨h1, h2, h3, h4, h5⟩ := h
  exact ⟨fun c hc => (hiff c).mp (h1 c hc), h2, h3,
    fun x hx => h4 x ((hiff x).mpr hx),
    fun x hx => h5 x ((hiff x).mpr hx)⟩

theorem rinv_init {σ : Type} (le : σ → σ → Bool) (all : List σ) :
    RInv le all (fun _ => False) [] := by
  refine ⟨?_, ?_, ?_, ?_, ?_⟩ <;> simp

theorem rinv_step {σ : Type} (le : σ → σ → Bool) (htrans : LeTrans le)
    (all : List σ) (processed : σ → Prop) (cands : List σ) (s : σ)
    (hs : s ∈ all) (h : RInv le all processed cands) :
    RInv le all (fun x => processed x ∨ x = s) (reduceStep le cands s) := by
  obtain ⟨hP, hAll, hAnti, hDom, hMax⟩ := h
  by_cases hcomp : (cands.any fun c => Comparable.is_comparable le c s) = true
  · obtain ⟨c0, hc0mem, hc0comp⟩ := List.any_eq_true.mp hcomp
    have hc0 : le c0 s = true ∨ le s c0 = true :=
      (Comparable.is_comparable_iff le c0 s).mp hc0comp
    have hstep : reduceStep le cands s =
        if cands.any fun c => le s c then
          (cands.filter fun c => !(Comparable.lt le s c)) ++ [s]
        else
          cands.filter fun c => !(Comparable.lt le s c) := by
      simp [reduceStep, hcomp]
    by_cases hle : (cands.any fun c => le s c) = true
    · -- the signature is at-or-below an original candidate: it is kept
      obtain ⟨c1, hc1mem, hc1le⟩ := List.any_eq_true.mp hle
      rw [hstep, if_pos hle]
      refine ⟨?_, ?_, ?_, ?_, ?_⟩
      · intro c hc
        rcases List.mem_append.mp hc with hc | hc
        · exact Or.inl (hP c (List.mem_filter.mp hc).1)
        · exact Or.inr (List.mem_singleton.mp hc)
      · intro c hc
        rcases List.mem_append.mp hc with hc | hc
        · exact hAll c (List.mem_filter.mp hc).1
        · rw [List.mem_singleton.mp hc]; exact hs
      · intro c hc c2 hc2
        rcases List.mem_append.mp hc with hc | hc <;>
          rcases List.mem_append.mp hc2 with hc2 | hc2
        · exact hAnti c (List.mem_filter.mp hc).1 c2 (List.mem_filter.mp hc2).1
        · -- a surviving candidate is never strictly below the new signature
          rw [List.mem_singleton.mp hc2]
          by_contra hne
          have hlt : Comparable.lt le c s = true :=
            Bool.ne_false_iff.mp (by intro hf; exact hne hf)
          have : Comparable.lt le c c1 = true :=
            Comparable.lt_of_lt_of_le le htrans c s c1 hlt hc1le
          rw [hAnti c (List.mem_filter.mp hc).1 c1 hc1mem] at this
          simp at this
        · rw [List.mem_singleton.mp hc]
          have := (List.mem_filter.mp hc2).2
          simpa using this
        · rw [List.mem_singleton.mp hc, List.mem_singleton.mp hc2]
          exact Comparable.lt_irrefl le s
      · intro x hx hxmem
        rcases hx with hx | rfl
        · by_cases hxc : x ∈ cands
          · have hxf : x ∉ cands.filter fun c => !(Comparable.lt le s c) := by
              intro hmem; exact hxmem (List.mem_append.mpr (Or.inl hmem))
            have hlt : Comparable.lt le s x = true := by
              by_contra hne
              refine hxf (List.mem_filter.mpr ⟨hxc, ?_⟩)
              simp [Bool.eq_false_iff.mpr hne]
            exact ⟨s, List.mem_append.mpr (Or.inr (List.mem_singleton.mpr rfl)),
              hlt⟩
          · obtain ⟨c, hcmem, hclt⟩ := hDom x hx hxc
            by_cases hcf : c ∈ cands.filter fun c => !(Comparable.lt le s c)
            · exact ⟨c, List.mem_append.mpr (Or.inl hcf), hclt⟩
            · have hlt : Comparable.lt le s c = true := by
                by_contra hne
                refine hcf (List.mem_filter.mpr ⟨hcmem, ?_⟩)
                simp [Bool.eq_false_iff.mpr hne]
              exact ⟨s,
                List.mem_append.mpr (Or.inr (List.mem_singleton.mpr rfl)),
                Comparable.lt_trans le htrans s c x hlt hclt⟩
        · exact absurd
            (List.mem_append.mpr (Or.inr (List.mem_singleton.mpr rfl))) hxmem
      · intro x hx hxmax
        rcases hx with hx | rfl
        · have hxc : x ∈ cands := hMax x hx hxmax
          refine List.mem_append.mpr (Or.inl (List.mem_filter.mpr ⟨hxc, ?_⟩))
          simp [hxmax s hs]
        · exact List.mem_append.mpr (Or.inr (List.mem_singleton.mpr rfl))
    · -- the signature is below no original candidate: it is discarded
      have hleF : (cands.any fun c => le s c) = false :=
        Bool.eq_false_iff.mpr hle
      have hallF : ∀ c ∈ cands, le s c = false := by
        intro c hc
        have := List.any_eq_false.mp hleF c hc
        exact Bool.eq_false_iff.mpr this
      have hc0lt : Comparable.lt le c0 s = true := by
        rcases hc0 with h0 | h0
        · exact (Comparable.lt_iff le c0 s).mpr ⟨h0, hallF c0 hc0mem⟩
        · rw [hallF c0 hc0mem] at h0; simp at h0
      have hc0f : c0 ∈ cands.filter fun c => !(Comparable.lt le s c) := by
        refine List.mem_filter.mpr ⟨hc0mem, ?_⟩
        simp [Comparable.lt_false_of_le_false le s c0 (hallF c0 hc0mem)]
      rw [hstep, if_neg (by rw [hleF]; exact Bool.false_ne_true)]
      refine ⟨?_, ?_, ?_, ?_, ?_⟩
      · intro c hc; exact Or.inl (hP c (List.mem_filter.mp hc).1)
      · intro c hc; exact hAll c (List.mem_filter.mp hc).1
      · intro c hc c2 hc2
        exact hAnti c (List.mem_filter.mp hc).1 c2 (List.mem_filter.mp hc2).1
      · intro x hx hxmem
        rcases hx with hx | rfl
        · by_cases hxc : x ∈ cands
          · have hlt : Comparable.lt le s x = true := by
              by_contra hne
              refine hxmem (List.mem_filter.mpr ⟨hxc, ?_⟩)
              simp [Bool.eq_false_iff.mpr hne]
            exact ⟨c0, hc0f, Comparable.lt_trans le htrans c0 s x hc0lt hlt⟩
          · obtain ⟨c, hcmem, hclt⟩ := hDom x hx hxc
            by_cases hcf : c ∈ cands.filter fun c => !(Comparable.lt le s c)
            · exact ⟨c, hcf, hclt⟩
            · have hlt : Comparable.lt le s c = true := by
                by_contra hne
                refine hcf (List.mem_filter.mpr ⟨hcmem, ?_⟩)
                simp [Bool.eq_false_iff.mpr hne]
              exact ⟨c0, hc0f, Comparable.lt_trans le htrans c0 s x hc0lt
                (Comparable.lt_trans le htrans s c x hlt hclt)⟩
        · exact ⟨c0, hc0f, hc0lt⟩
      · intro x hx hxmax
        rcases hx with hx | rfl
        · have hxc : x ∈ cands := hMax x hx hxmax
          refine List.mem_filter.mpr ⟨hxc, ?_⟩
          simp [hxmax s hs]
        · have := hxmax c0 (hAll c0 hc0mem)
          rw [hc0lt] at this
          simp at this
  · -- incomparable with every candidate: appended unchanged
    have hcompF : (cands.any fun c => Comparable.is_comparable le c s) = false :=
      Bool.eq_false_iff.mpr hcomp
    have hinc : ∀ c ∈ cands, le c s = false ∧ le s c = false := by
      intro c hc
      exact Comparable.comparable_false le c s
        (Bool.eq_false_iff.mpr (List.any_eq_false.mp hcompF c hc))
    have hstep : reduceStep le cands s = cands ++ [s] := by
      simp [reduceStep, hcompF]
    rw [hstep]
    refine ⟨?_, ?_, ?_, ?_, ?_⟩
    · intro c hc
      rcases List.mem_append.mp hc with hc | hc
      · exact Or.inl (hP c hc)
      · exact Or.inr (List.mem_singleton.mp hc)
    · intro c hc
      rcases List.mem_append.mp hc with hc | hc
      · exact hAll c hc
      · rw [List.mem_singleton.mp hc]; exact hs
    · intro c hc c2 hc2
      rcases List.mem_append.mp hc with hc | hc <;>
        rcases List.mem_append.mp hc2 with hc2 | hc2
      · exact hAnti c hc c2 hc2
      · rw [List.mem_singleton.mp hc2]
        exact Comparable.lt_false_of_le_false le c s (hinc c hc).1
      · rw [List.mem_singleton.mp hc]
        exact Comparable.lt_false_of_le_false le s c2 (hinc c2 hc2).2
      · rw [List.mem_singleton.mp hc, List.mem_singleton.mp hc2]
        exact Comparable.lt_irrefl le s
    · intro x hx hxmem
      rcases hx with hx | rfl
      · have hxc : x ∉ cands := fun hm =>
          hxmem (List.mem_append.mpr (Or.inl hm))
        obtain ⟨c, hcmem, hclt⟩ := hDom x hx hxc
        exact ⟨c, List.mem_append.mpr (Or.inl hcmem), hclt⟩
      · exact absurd
          (List.mem_append.mpr (Or.inr (List.mem_singleton.mpr rfl))) hxmem
    · intro x hx hxmax
      rcases hx with hx | rfl
      · exact List.mem_append.mpr (Or.inl (hMax x hx hxmax))
      · exact List.mem_append.mpr (Or.inr (List.mem_singleton.mpr rfl))

theorem rinv_fold {σ : Type} (le : σ → σ → Bool) (htrans : LeTrans le)
    (all : List σ) :
    ∀ (suf : List σ) (processed : σ → Prop) (cands : List σ),
      (∀ s ∈ suf, s ∈ all) → RInv le all processed cands →
      RInv le all (fun x => processed x ∨ x ∈ suf)
        (suf.foldl (reduceStep le) cands) := by
  intro suf
  induction suf with
  | nil =>
    intro processed cands _ h
    exact rinv_congr (fun x => by simp) h
  | cons s rest ih =>
    intro processed cands hsub h
    have hstep := rinv_step le htrans all processed cands s
      (hsub s (List.mem_cons_self s rest)) h
    have hrest := ih (fun x => processed x ∨ x = s) (reduceStep le cands s)
      (fun x hx => hsub x (List.mem_cons_of_mem s hx)) hstep
    refine rinv_congr (fun x => ?_) hrest
    simp [List.mem_cons]
    tauto

theorem frontier_rinv {σ : Type} (le : σ → σ → Bool) (htrans : LeTrans le)
    (l : List σ) : RInv le l (fun x => x ∈ l) (frontierReduce le l) := by
  have h := rinv_fold le htrans l l (fun _ => False) []
    (fun s hs => hs) (rinv_init le l)
  exact rinv_congr (fun x => by simp) h

/-- The final candidate list of the reduction loop contains exactly the
applicable signatures strictly dominated by no applicable signature. -/
theorem frontier_mem_iff {σ : Type} (le : σ → σ → Bool) (htrans : LeTrans le)
    (l : List σ) (x : σ) :
    x ∈ frontierReduce le l ↔
      (x ∈ l ∧ ∀ y ∈ l, Comparable.lt le y x = false) := by
  obtain ⟨hP, hAll, hAnti, hDom, hMax⟩ := frontier_rinv le htrans l
  constructor
  · intro hx
    refine ⟨hAll x hx, ?_⟩
    intro y hy
    by_contra hne
    have hlt : Comparable.lt le y x = true := Bool.ne_false_iff.mp hne
    by_cases hyc : y ∈ frontierReduce le l
    · rw [hAnti y hyc x hx] at hlt
      simp at hlt
    · obtain ⟨c, hcmem, hclt⟩ := hDom y hy hyc
      have := Comparable.lt_trans le htrans c y x hclt hlt
      rw [hAnti c hcmem x hx] at this
      simp at this
  · intro ⟨hmem, hmax⟩
    exact hMax x hmem hmax

theorem getD_mem {σ : Type} (l : List σ) (n : Nat) (d : σ) (hd : d ∈ l) :
    l.getD n d ∈ l := by
  rw [List.getD_eq_getElem?_getD]
  cases hv : l[n]? with
  | none => simpa using hd
  | some v =>
    have := List.getElem?_mem hv
    simpa [hv] using this

/-- Whatever `_find_signature` returns successfully is one of the candidates
left by the reduction loop. -/
theorem find_ok_mem {σ π ι τ : Type} (api : SigAPI σ π ι τ) (r : Resolver σ)
    (target : Target π σ) (c : σ)
    (h : find_signature api r target = Except.ok c) :
    c ∈ candidatesOf api r target := by
  unfold find_signature at h
  rcases hc : candidatesOf api r target with _ | ⟨a, _ | ⟨b, rest⟩⟩ <;>
    rw [hc] at h
  · exact absurd h (by simp)
  · rw [List.mem_singleton]
    exact (Except.ok.injEq _ _).mp h.symm
  · simp only at h
    split at h
    · have hceq := (Except.ok.injEq _ _).mp h
      rw [← hceq]
      exact getD_mem _ _ a (List.mem_cons_self a (b :: rest))
    · exact absurd h (by simp)

theorem le_listMax_of_mem {q : Int} :
    ∀ {ps : List Int}, q ∈ ps → q ≤ listMax ps := by
  intro ps
  induction ps with
  | nil => intro h; cases h
  | cons p rest ih =>
    intro h
    rcases List.mem_cons.mp h with rfl | hq
    · cases rest with
      | nil => simp [listMax]
      | cons r rs => rw [listMax]; exact le_max_left _ _
    · cases rest with
      | nil => cases hq
      | cons r rs => rw [listMax]; exact le_trans (ih hq) (le_max_right _ _)

theorem listMax_mem : ∀ (p : Int) (ps : List Int), listMax (p :: ps) ∈ p :: ps := by
  intro p ps
  induction ps generalizing p with
  | nil => simp [listMax]
  | cons q rest ih =>
    rw [listMax]
    rcases max_choice p (listMax (q :: rest)) with h | h <;> rw [h]
    · exact List.mem_cons_self p (q :: rest)
    · exact List.mem_cons_of_mem p (ih q)

theorem frontier_singleton {σ : Type} (le : σ → σ → Bool) (s : σ) :
    frontierReduce le [s] = [s] := by
  simp [frontierReduce, reduceStep]

theorem find_of_singleton {σ π ι τ : Type} (api : SigAPI σ π ι τ)
    (r : Resolver σ) (target : Target π σ) (s : σ)
    (h : candidatesOf api r target = [s]) :
    find_signature api r target = Except.ok s := by
  unfold find_signature
  rw [h]

/-- Claim C1: for every resolution target and every pair of registered
signatures `A` and `B` that are both applicable to that target, if `A < B`
(`A` strictly more specific) under a valid preorder, then `B` is discarded by
the frontier reduction and `_find_signature` never returns `B`. -/
theorem claim_c1 {σ π ι τ : Type} (api : SigAPI σ π ι τ)
    (hrefl : LeRefl api.le) (htrans : LeTrans api.le)
    (r : Resolver σ) (target : Target π σ) (A B : σ)
    (hAmem : A ∈ r.signatures) (hBmem : B ∈ r.signatures)
    (hAapp : checkFor api target A = true)
    (hBapp : checkFor api target B = true)
    (hAB : Comparable.lt api.le A B = true) :
    B ∉ candidatesOf api r target ∧
      find_signature api r target ≠ Except.ok B := by
  have hAappl : A ∈ applicableOf api r target :=
    List.mem_filter.mpr ⟨hAmem, hAapp⟩
  have hBnot : B ∉ candidatesOf api r target := by
    intro hB
    rw [candidatesOf] at hB
    have hchar :=
      (frontier_mem_iff api.le htrans (applicableOf api r target) B).mp hB
    have := hchar.2 A hAappl
    rw [hAB] at this
    simp at this
  exact ⟨hBnot, fun h => hBnot (find_ok_mem api r target B h)⟩

/-- Witness for C1 on a three-element chain: with signatures `0` and `1` both
applicable and `0 < 1`, resolution never yields `1`. -/
theorem claim_c1_witness :
    LeRefl chainApi.le ∧ LeTrans chainApi.le ∧
    (0 : Fin 3) ∈ (noOwnerResolver [0, 1]).signatures ∧
    (1 : Fin 3) ∈ (noOwnerResolver [0, 1]).signatures ∧
    checkFor chainApi (Target.args 5) (0 : Fin 3) = true ∧
    checkFor chainApi (Target.args 5) (1 : Fin 3) = true ∧
    Comparable.lt chainApi.le 0 1 = true ∧
    ((1 : Fin 3) ∉ candidatesOf chainApi (noOwnerResolver [0, 1])
        (Target.args 5) ∧
      find_signature chainApi (noOwnerResolver [0, 1]) (Target.args 5) ≠
        Except.ok 1) :=
  ⟨by decide, by decide, by decide, by decide, by decide, by decide, by decide,
    claim_c1 chainApi (by decide) (by decide) (noOwnerResolver [0, 1])
      (Target.args 5) 0 1 (by decide) (by decide) (by decide) (by decide)
      (by decide)⟩

/-- Claim C2: for a valid preorder, the incremental frontier reduction yields
the same candidate set whatever the registration order of the same signatures;
in particular, when the applicable signatures reduce to exactly one, both
orders resolve to it. -/
theorem claim_c2 {σ π ι τ : Type} (api : SigAPI σ π ι τ)
    (hrefl : LeRefl api.le) (htrans : LeTrans api.le)
    (r r2 : Resolver σ) (hperm : r.signatures.Perm r2.signatures)
    (target : Target π σ) :
    (∀ x, x ∈ candidatesOf api r target ↔ x ∈ candidatesOf api r2 target) ∧
    (∀ s, applicableOf api r target = [s] →
      find_signature api r target = Except.ok s ∧
      find_signature api r2 target = Except.ok s) := by
  have hpermf : (applicableOf api r target).Perm (applicableOf api r2 target) :=
    hperm.filter (checkFor api target)
  constructor
  · intro x
    rw [candidatesOf, candidatesOf,
      frontier_mem_iff api.le htrans (applicableOf api r target) x,
      frontier_mem_iff api.le htrans (applicableOf api r2 target) x]
    constructor
    · intro ⟨h1, h2⟩
      exact ⟨hpermf.mem_iff.mp h1, fun y hy => h2 y (hpermf.mem_iff.mpr hy)⟩
    · intro ⟨h1, h2⟩
      exact ⟨hpermf.mem_iff.mpr h1, fun y hy => h2 y (hpermf.mem_iff.mp hy)⟩
  · intro s hs
    have hs2 : applicableOf api r2 target = [s] := by
      rw [hs] at hpermf
      exact hpermf.symm.eq_singleton
    constructor
    · refine find_of_singleton api r target s ?_
      rw [candidatesOf, hs]
      exact frontier_singleton api.le s
    · refine find_of_singleton api r2 target s ?_
      rw [candidatesOf, hs2]
      exact frontier_singleton api.le s

/-- Witness for C2 on a discrete order: registration orders `[0, 1]` and
`[1, 0]` give the same candidates, and the unique applicable signature `1`
is returned for both orders. -/
theorem claim_c2_witness :
    LeRefl flatApi.le ∧ LeTrans flatApi.le ∧
    (noOwnerResolver [0, 1]).signatures.Perm
      (noOwnerResolver [1, 0]).signatures ∧
    ((∀ x, x ∈ candidatesOf flatApi (noOwnerResolver [0, 1]) (Target.args 1) ↔
        x ∈ candidatesOf flatApi (noOwnerResolver [1, 0]) (Target.args 1)) ∧
      (∀ s, applicableOf flatApi (noOwnerResolver [0, 1]) (Target.args 1) =
          [s] →
        find_signature flatApi (noOwnerResolver [0, 1]) (Target.args 1) =
          Except.ok s ∧
        find_signature flatApi (noOwnerResolver [1, 0]) (Target.args 1) =
          Except.ok s)) :=
  ⟨by decide, by decide, by decide,
    claim_c2 flatApi (by decide) (by decide) (noOwnerResolver [0, 1])
      (noOwnerResolver [1, 0]) (by decide) (Target.args 1)⟩

/-- Claim C3: with zero candidates left by the reduction `_find_signature`
fails with NotFound; with exactly one it returns it; with several it returns
the one holding the maximum precedence when exactly one candidate holds it,
and otherwise fails with Ambiguous carrying every tied candidate with its
precedence in discovery order. -/
theorem claim_c3 {σ π ι τ : Type} (api : SigAPI σ π ι τ) (r : Resolver σ)
    (target : Target π σ) :
    (candidatesOf api r target = [] →
      find_signature api r target = Except.error LookupErr.notFound) ∧
    (∀ c, candidatesOf api r target = [c] →
      find_signature api r target = Except.ok c) ∧
    (∀ c c2 rest, candidatesOf api r target = c :: c2 :: rest →
      (∀ p ∈ (c :: c2 :: rest).map api.precedence,
        p ≤ listMax ((c :: c2 :: rest).map api.precedence)) ∧
      (((c :: c2 :: rest).map api.precedence).count
          (listMax ((c :: c2 :: rest).map api.precedence)) = 1 →
        ∃ w ∈ c :: c2 :: rest,
          api.precedence w =
            listMax ((c :: c2 :: rest).map api.precedence) ∧
          find_signature api r target = Except.ok w) ∧
      (((c :: c2 :: rest).map api.precedence).count
          (listMax ((c :: c2 :: rest).map api.precedence)) ≠ 1 →
        find_signature api r target =
          Except.error (LookupErr.ambiguous
            ((c :: c2 :: rest).map fun x => (x, api.precedence x))))) := by
  refine ⟨?_, ?_, ?_⟩
  · intro h
    unfold find_signature
    rw [h]
  · intro c h
    unfold find_signature
    rw [h]
  · intro c c2 rest h
    have hmmem : listMax ((c :: c2 :: rest).map api.precedence) ∈
        (c :: c2 :: rest).map api.precedence := by
      rw [List.map_cons]
      exact listMax_mem (api.precedence c) ((c2 :: rest).map api.precedence)
    refine ⟨fun p hp => le_listMax_of_mem hp, ?_, ?_⟩
    · intro hcount
      have hilt : ((c :: c2 :: rest).map api.precedence).indexOf
          (listMax ((c :: c2 :: rest).map api.precedence)) <
          ((c :: c2 :: rest).map api.precedence).length :=
        List.indexOf_lt_length.mpr hmmem
      have hiltc : ((c :: c2 :: rest).map api.precedence).indexOf
          (listMax ((c :: c2 :: rest).map api.precedence)) <
          (c :: c2 :: rest).length := by
        rw [List.length_map] at hilt
        exact hilt
      refine ⟨(c :: c2 :: rest).getD
        (((c :: c2 :: rest).map api.precedence).indexOf
          (listMax ((c :: c2 :: rest).map api.precedence))) c,
        getD_mem _ _ c (List.mem_cons_self c (c2 :: rest)), ?_, ?_⟩
      · have h1 : ((c :: c2 :: rest).map api.precedence).get
            ⟨((c :: c2 :: rest).map api.precedence).indexOf
              (listMax ((c :: c2 :: rest).map api.precedence)), hilt⟩ =
            listMax ((c :: c2 :: rest).map api.precedence) :=
          List.indexOf_get hilt
        rw [List.get_eq_getElem, List.getElem_map] at h1
        rw [List.getD_eq_getElem?_getD, List.getElem?_eq_getElem hiltc,
          Option.getD_some]
        exact h1
      · unfold find_signature
        rw [h]
        simp only [List.map_cons] at hcount
        simp [hcount]
    · intro hcount
      unfold find_signature
      rw [h]
      simp only [List.map_cons] at hcount
      simp [hcount]

/-- Witness for C3: two incomparable applicable signatures with equal
precedence yield Ambiguous listing both with their precedences; raising one
signature's precedence makes it the unique winner. -/
theorem claim_c3_witness :
    candidatesOf ambApi (noOwnerResolver [0, 1]) (Target.args 0) = [0, 1] ∧
    find_signature ambApi (noOwnerResolver [0, 1]) (Target.args 0) =
      Except.error (LookupErr.ambiguous
        (([0, 1] : List (Fin 3)).map fun x => (x, ambApi.precedence x))) ∧
    candidatesOf precApi (noOwnerResolver [0, 1]) (Target.args 0) = [0, 1] ∧
    (∃ w ∈ ([0, 1] : List (Fin 3)),
      precApi.precedence w =
        listMax (([0, 1] : List (Fin 3)).map precApi.precedence) ∧
      find_signature precApi (noOwnerResolver [0, 1]) (Target.args 0) =
        Except.ok w) :=
  ⟨by decide, ((claim_c3 ambApi (noOwnerResolver [0, 1])
      (Target.args 0)).2.2 0 1 [] (by decide)).2.2 (by decide),
    by decide, ((claim_c3 precApi (noOwnerResolver [0, 1])
      (Target.args 0)).2.2 0 1 [] (by decide)).2.1 (by decide)⟩

theorem map_count_one_decomp {σ : Type} (p : σ → Bool) :
    ∀ (l : List σ), (l.map p).count true = 1 →
      ∃ pre a post, l = pre ++ a :: post ∧ p a = true ∧
        (∀ x ∈ pre, p x = false) ∧ (∀ x ∈ post, p x = false) := by
  intro l
  induction l with
  | nil => intro h; simp at h
  | cons x xs ih =>
    intro h
    rw [List.map_cons, List.count_cons] at h
    cases hx : p x
    · rw [hx] at h
      simp at h
      obtain ⟨pre, a, post, hd, hpa, hpre, hpost⟩ := ih h
      refine ⟨x :: pre, a, post, by rw [hd]; rfl, hpa, ?_, hpost⟩
      intro y hy
      rcases List.mem_cons.mp hy with rfl | hy2
      · exact hx
      · exact hpre y hy2
    · rw [hx] at h
      simp at h
      have hnm : true ∉ xs.map p := List.not_mem_of_count_eq_zero h
      have hall : ∀ y ∈ xs, p y = false := by
        intro y hy
        cases hv : p y
        · rfl
        · exact absurd (List.mem_map.mpr ⟨y, hy, hv⟩) hnm
      exact ⟨[], x, xs, rfl, hx, by simp, hall⟩

theorem indexOf_true_map {σ : Type} (p : σ → Bool) :
    ∀ (pre : List σ) (a : σ) (post : List σ), (∀ x ∈ pre, p x = false) →
      p a = true → ((pre ++ a :: post).map p).indexOf true = pre.length := by
  intro pre
  induction pre with
  | nil =>
    intro a post _ hpa
    rw [List.nil_append, List.map_cons, hpa]
    simp
  | cons x xs ih =>
    intro a post hpre hpa
    rw [List.cons_append, List.map_cons, hpre x (List.mem_cons_self x xs),
      List.indexOf_cons_ne _ Bool.false_ne_true,
      ih a post (fun y hy => hpre y (List.mem_cons_of_mem x hy)) hpa]
    simp

theorem set_at_length_append {σ : Type} :
    ∀ (pre : List σ) (a : σ) (post : List σ) (b : σ),
      (pre ++ a :: post).set pre.length b = pre ++ b :: post := by
  intro pre
  induction pre with
  | nil => intro a post b; rfl
  | cons x xs ih =>
    intro a post b
    show x :: (xs ++ a :: post).set xs.length b = x :: (xs ++ b :: post)
    rw [ih]

theorem any_id_true_of_count {bs : List Bool} (h : 0 < bs.count true) :
    bs.any id = true :=
  List.any_eq_true.mpr ⟨true, List.count_pos_iff.mp h, rfl⟩

theorem any_id_false_of_count {bs : List Bool} (h : bs.count true = 0) :
    bs.any id = false := by
  refine List.any_eq_false.mpr ?_
  intro b hb
  cases b
  · simp
  · exact absurd hb (List.not_mem_of_count_eq_zero h)

theorem not_any_not_eq_all {σ : Type} (p : σ → Bool) (l : List σ) :
    (!(l.any fun s => !(p s))) = l.all p :=
  (List.all_eq_not_any_not l p).symm

theorem all_false_iff {σ : Type} (p : σ → Bool) (l : List σ) :
    l.all p = false ↔ ∃ x ∈ l, p x = false := by
  rw [List.all_eq_false]
  constructor
  · intro ⟨x, hx, hnx⟩
    exact ⟨x, hx, Bool.eq_false_iff.mpr hnx⟩
  · intro ⟨x, hx, hfx⟩
    refine ⟨x, hx, ?_⟩
    rw [hfx]
    exact Bool.false_ne_true

/-- Claim C5: registering a signature equal to exactly one registered entry
replaces that entry in place, preserving the length and every other position,
and a subsequent resolution of that shape returns the new implementation;
registering a signature equal to no entry appends it, growing the length by
exactly one. -/
theorem claim_c5 {σ π ι τ : Type} (api : SigAPI σ π ι τ) (r : Resolver σ)
    (signature : σ) :
    ((r.signatures.map fun s => api.beq s signature).count true = 1 →
      ∃ pre old post,
        r.signatures = pre ++ old :: post ∧
        api.beq old signature = true ∧
        (∀ x ∈ pre, api.beq x signature = false) ∧
        (∀ x ∈ post, api.beq x signature = false) ∧
        ∃ r2, register api r signature = Except.ok r2 ∧
          r2.signatures = pre ++ signature :: post ∧
          r2.signatures.length = r.signatures.length ∧
          ∀ t2 : Target π σ,
            r2.signatures.filter (checkFor api t2) = [signature] →
            resolve api r2 t2 =
              Except.ok (ResolvedImpl.sigImpl (api.implementation signature),
                ResolvedType.declared (api.return_type signature))) ∧
    ((r.signatures.map fun s => api.beq s signature).count true = 0 →
      ∃ r2, register api r signature = Except.ok r2 ∧
        r2.signatures = r.signatures ++ [signature] ∧
        r2.signatures.length = r.signatures.length + 1) := by
  constructor
  · intro hcount
    obtain ⟨pre, old, post, hd, hpa, hpre, hpost⟩ :=
      map_count_one_decomp (fun s => api.beq s signature) r.signatures hcount
    have hany : (r.signatures.map fun s => api.beq s signature).any id = true :=
      any_id_true_of_count (by rw [hcount]; exact Nat.one_pos)
    have hidx : (r.signatures.map fun s => api.beq s signature).indexOf true =
        pre.length := by
      rw [hd]
      exact indexOf_true_map _ pre old post hpre hpa
    have hset : r.signatures.set
        ((r.signatures.map fun s => api.beq s signature).indexOf true)
        signature = pre ++ signature :: post := by
      rw [hidx, hd]
      exact set_at_length_append pre old post signature
    have hreg : register api r signature = Except.ok
        ⟨pre ++ signature :: post,
          !((pre ++ signature :: post).any fun s => !(api.is_faithful s)),
          r.owner, r.function_name⟩ := by
      have hnot : ¬((r.signatures.map fun s =>
          api.beq s signature).count true ≠ 1) := fun hne => hne hcount
      unfold register
      simp only [hany, if_true, hset]
      rw [if_neg hnot]
    refine ⟨pre, old, post, hd, hpa, hpre, hpost,
      ⟨pre ++ signature :: post,
        !((pre ++ signature :: post).any fun s => !(api.is_faithful s)),
        r.owner, r.function_name⟩, hreg, rfl, by simp [hd], ?_⟩
    intro t2 hfilter
    have hfind : find_signature api
        ⟨pre ++ signature :: post,
          !((pre ++ signature :: post).any fun s => !(api.is_faithful s)),
          r.owner, r.function_name⟩ t2 = Except.ok signature := by
      refine find_of_singleton api _ t2 signature ?_
      rw [candidatesOf, applicableOf]
      rw [show (Resolver.mk (pre ++ signature :: post)
        (!((pre ++ signature :: post).any fun s => !(api.is_faithful s)))
        r.owner r.function_name).signatures = pre ++ signature :: post
        from rfl]
      rw [hfilter]
      exact frontier_singleton api.le signature
    unfold resolve
    rw [hfind]
  · intro hcount
    have hany : (r.signatures.map fun s => api.beq s signature).any id =
        false := any_id_false_of_count hcount
    refine ⟨⟨r.signatures ++ [signature],
      !((r.signatures ++ [signature]).any fun s => !(api.is_faithful s)),
      r.owner, r.function_name⟩, ?_, rfl, by simp⟩
    unfold register
    simp only [hany, Bool.false_eq_true, if_false]

/-- Witness for C5: on the chain instance, re-registering `1` over `[0, 1]`
replaces it in place, and registering the fresh `2` appends. -/
theorem claim_c5_witness :
    (((noOwnerResolver [0, 1]).signatures.map fun s =>
        chainApi.beq s 1).count true = 1 ∧
      ∃ pre old post,
        (noOwnerResolver [0, 1]).signatures = pre ++ old :: post ∧
        chainApi.beq old 1 = true ∧
        (∀ x ∈ pre, chainApi.beq x 1 = false) ∧
        (∀ x ∈ post, chainApi.beq x 1 = false) ∧
        ∃ r2, register chainApi (noOwnerResolver [0, 1]) 1 = Except.ok r2 ∧
          r2.signatures = pre ++ 1 :: post ∧
          r2.signatures.length = (noOwnerResolver [0, 1]).signatures.length ∧
          ∀ t2 : Target Nat (Fin 3),
            r2.signatures.filter (checkFor chainApi t2) = [1] →
            resolve chainApi r2 t2 =
              Except.ok (ResolvedImpl.sigImpl (chainApi.implementation 1),
                ResolvedType.declared (chainApi.return_type 1))) ∧
    (((noOwnerResolver [0, 1]).signatures.map fun s =>
        chainApi.beq s 2).count true = 0 ∧
      ∃ r2, register chainApi (noOwnerResolver [0, 1]) 2 = Except.ok r2 ∧
        r2.signatures = (noOwnerResolver [0, 1]).signatures ++ [2] ∧
        r2.signatures.length =
          (noOwnerResolver [0, 1]).signatures.length + 1) :=
  ⟨⟨by decide, (claim_c5 chainApi (noOwnerResolver [0, 1]) 1).1 (by decide)⟩,
    ⟨by decide, (claim_c5 chainApi (noOwnerResolver [0, 1]) 2).2 (by decide)⟩⟩

/-- Claim C6: `register` fails if and only if the new signature is equal to
more than one already-registered signature; no resolver state is produced in
that case. -/
theorem claim_c6 {σ π ι τ : Type} (api : SigAPI σ π ι τ) (r : Resolver σ)
    (signature : σ) :
    (∃ msg, register api r signature = Except.error msg) ↔
      1 < (r.signatures.map fun s => api.beq s signature).count true := by
  by_cases hany :
      ((r.signatures.map fun s => api.beq s signature).any id) = true
  · by_cases hone :
        (r.signatures.map fun s => api.beq s signature).count true = 1
    · have hreg : register api r signature = Except.ok
          ⟨r.signatures.set
            ((r.signatures.map fun s => api.beq s signature).indexOf true)
            signature,
          !((r.signatures.set
            ((r.signatures.map fun s => api.beq s signature).indexOf true)
            signature).any fun s => !(api.is_faithful s)),
          r.owner, r.function_name⟩ := by
        have hnot : ¬((r.signatures.map fun s =>
            api.beq s signature).count true ≠ 1) := fun hne => hne hone
        unfold register
        simp only [hany, if_true]
        rw [if_neg hnot]
      constructor
      · intro ⟨msg, hmsg⟩
        rw [hreg] at hmsg
        exact absurd hmsg (by simp)
      · intro hlt
        rw [hone] at hlt
        exact absurd hlt (lt_irrefl 1)
    · have hreg : register api r signature = Except.error
          "The added signature is equal to several existing signatures. This should never happen." := by
        unfold register
        simp only [hany, if_true]
        rw [if_pos hone]
      constructor
      · intro _
        have hpos :
            0 < (r.signatures.map fun s => api.beq s signature).count true := by
          have hmem := List.any_eq_true.mp hany
          obtain ⟨b, hb, hbid⟩ := hmem
          have : b = true := hbid
          rw [this] at hb
          exact List.count_pos_iff.mpr hb
        omega
      · intro _
        exact ⟨_, hreg⟩
  · have hanyF : (r.signatures.map fun s => api.beq s signature).any id =
        false := Bool.eq_false_iff.mpr hany
    have hreg : register api r signature = Except.ok
        ⟨r.signatures ++ [signature],
        !((r.signatures ++ [signature]).any fun s => !(api.is_faithful s)),
        r.owner, r.function_name⟩ := by
      unfold register
      simp only [hanyF, Bool.false_eq_true, if_false]
    have hc0 : (r.signatures.map fun s => api.beq s signature).count true =
        0 := by
      by_contra hne
      have hpos : 0 <
          (r.signatures.map fun s => api.beq s signature).count true :=
        Nat.pos_of_ne_zero hne
      exact hany (any_id_true_of_count hpos)
    constructor
    · intro ⟨msg, hmsg⟩
      rw [hreg] at hmsg
      exact absurd hmsg (by simp)
    · intro hlt
      rw [hc0] at hlt
      omega

/-- Witness for C6: registering `1` into `[1, 1]` (two equal entries) fails,
matching the count being greater than one. -/
theorem claim_c6_witness :
    ((∃ msg, register chainApi (noOwnerResolver [1, 1]) 1 =
        Except.error msg) ↔
      1 < ((noOwnerResolver [1, 1]).signatures.map fun s =>
        chainApi.beq s 1).count true) ∧
    1 < ((noOwnerResolver [1, 1]).signatures.map fun s =>
      chainApi.beq s 1).count true :=
  ⟨claim_c6 chainApi (noOwnerResolver [1, 1]) 1, by decide⟩

/-- Claim C7: after every successful registration the aggregate faithfulness
flag equals the conjunction of all registered signatures' flags, and is false
exactly when some registered signature is unfaithful. -/
theorem claim_c7 {σ π ι τ : Type} (api : SigAPI σ π ι τ) (r : Resolver σ)
    (signature : σ) (r2 : Resolver σ)
    (h : register api r signature = Except.ok r2) :
    r2.is_faithful = r2.signatures.all api.is_faithful ∧
    (r2.is_faithful = false ↔
      ∃ s ∈ r2.signatures, api.is_faithful s = false) := by
  simp only [register] at h
  split_ifs at h
  all_goals first
  | exact Except.noConfusion h
  | (obtain rfl := (Except.ok.injEq _ _).mp h
     exact ⟨not_any_not_eq_all api.is_faithful _, by
       rw [not_any_not_eq_all api.is_faithful _]
       exact all_false_iff api.is_faithful _⟩)

/-- Witness for C7: registering the unfaithful signature `2` flips the
aggregate flag to false, matching the conjunction over `[0, 1, 2]`. -/
theorem claim_c7_witness :
    register chainApi (noOwnerResolver [0, 1]) 2 = Except.ok c7Expected ∧
    (c7Expected.is_faithful = c7Expected.signatures.all chainApi.is_faithful ∧
      (c7Expected.is_faithful = false ↔
        ∃ s ∈ c7Expected.signatures, chainApi.is_faithful s = false)) :=
  ⟨by rfl,
    claim_c7 chainApi (noOwnerResolver [0, 1]) 2 c7Expected (by rfl)⟩

/-- Claim C8: the comparisons derived by the `Comparable` mixin from the
single less-or-equal primitive satisfy the reference definitions: equality is
mutual less-or-equal, strict less-than is less-or-equal plus inequality,
greater-or-equal and greater-than are the converses, and comparability is the
disjunction of the three relations. -/
theorem claim_c8 {α : Type} (le : α → α → Bool) (a b : α) :
    (Comparable.eq le a b = true ↔ (le a b = true ∧ le b a = true)) ∧
    (Comparable.lt le a b = true ↔
      (le a b = true ∧ Comparable.ne le a b = true)) ∧
    Comparable.ge le a b = le b a ∧
    Comparable.gt le a b = Comparable.lt le b a ∧
    (Comparable.is_comparable le a b = true ↔
      (Comparable.lt le a b = true ∨ Comparable.eq le a b = true ∨
        Comparable.gt le a b = true)) := by
  cases hab : le a b <;> cases hba : le b a <;>
    simp [Comparable.eq, Comparable.ne, Comparable.lt, Comparable.ge,
      Comparable.gt, Comparable.is_comparable, hab, hba]

/-- Claim C9: a resolution call, whatever its outcome, leaves the registered
signatures, the aggregate faithfulness flag, the owner, and the function name
of the resolver unchanged. -/
theorem claim_c9 {σ π ι τ : Type} (api : SigAPI σ π ι τ) (r : Resolver σ)
    (target : Target π σ) :
    ((resolveS api r target).2.signatures = r.signatures ∧
      (resolveS (ι := ι) (τ := τ) api r target).2.is_faithful =
        r.is_faithful) ∧
    ((resolveS (ι := ι) (τ := τ) api r target).2.owner = r.owner ∧
      (resolveS (ι := ι) (τ := τ) api r target).2.function_name =
        r.function_name) := by
  unfold resolveS find_signatureS handle_not_found_lookup_errorS
  cases hf : find_signature api r target with
  | ok s => simp
  | error e =>
    cases e with
    | notFound => simp
    | ambiguous listed => simp

theorem mroWalk_skip {name : String} {x : PyClass} (hx : skippedClass name x)
    (rest : List PyClass) : mroWalk name (x :: rest) = mroWalk name rest := by
  by_cases hroot : (x.ident = objectId ∨ x.ident = typeId)
  · simp only [mroWalk]
    rw [if_pos hroot]
  · rcases hx with hr | hnone | ⟨m, hm, habs⟩
    · exact absurd hr hroot
    · simp only [mroWalk]
      rw [if_neg hroot, hnone]
    · simp only [mroWalk]
      rw [if_neg hroot, hm]
      simp [habs]

theorem mroWalk_skip_all {name : String} :
    ∀ (cs : List PyClass), (∀ x ∈ cs, skippedClass name x) →
      mroWalk name cs = none := by
  intro cs
  induction cs with
  | nil => intro _; rfl
  | cons x rest ih =>
    intro h
    rw [mroWalk_skip (h x (List.mem_cons_self x rest))]
    exact ih fun y hy => h y (List.mem_cons_of_mem x hy)

theorem mroWalk_first {name : String} :
    ∀ (pre : List PyClass) (c : PyClass) (post : List PyClass) (m : PyMember),
      (∀ x ∈ pre, skippedClass name x) →
      ¬(c.ident = objectId ∨ c.ident = typeId) →
      c.dict.lookup name = some m →
      m.isabstractmethod = false →
      mroWalk name (pre ++ c :: post) = some m := by
  intro pre
  induction pre with
  | nil =>
    intro c post m _ hroot hlook habs
    rw [List.nil_append]
    simp only [mroWalk]
    rw [if_neg hroot, hlook]
    simp [habs]
  | cons x xs ih =>
    intro c post m hpre hroot hlook habs
    rw [List.cons_append, mroWalk_skip (hpre x (List.mem_cons_self x xs))]
    exact ih c post m (fun y hy => hpre y (List.mem_cons_of_mem x hy))
      hroot hlook habs

/-- Claim C4 as amended: the ancestor fallback runs only when resolution
fails with NotFound and the resolver has an owner (Ambiguous failures,
successes, and ownerless resolvers bypass it); it walks the owner's MRO
excluding the owner itself and the roots `object` and `type`, stops at the
first non-abstract member an ancestor declares under the operation's name in
its own `__dict__`, and returns that member with the unconstrained return
type provided it is truthy; it re-raises the original NotFound unchanged when
no such member exists, and also when the first such member found is falsy. -/
theorem claim_c4_amended {σ π ι τ : Type} (api : SigAPI σ π ι τ)
    (r : Resolver σ) (target : Target π σ) :
    (∀ s, find_signature api r target = Except.ok s →
      resolve api r target =
        Except.ok (ResolvedImpl.sigImpl (api.implementation s),
          ResolvedType.declared (api.return_type s))) ∧
    (∀ listed, find_signature api r target =
        Except.error (LookupErr.ambiguous listed) →
      resolve (ι := ι) (τ := τ) api r target =
        Except.error (LookupErr.ambiguous listed)) ∧
    (find_signature api r target = Except.error LookupErr.notFound →
      r.owner = none →
      resolve (ι := ι) (τ := τ) api r target =
        Except.error LookupErr.notFound) ∧
    (∀ o, find_signature api r target = Except.error LookupErr.notFound →
      r.owner = some o →
      (mroWalk r.function_name (o.mro.drop 1) = none →
        resolve (ι := ι) (τ := τ) api r target =
          Except.error LookupErr.notFound) ∧
      (∀ m, mroWalk r.function_name (o.mro.drop 1) = some m →
        (m.truthy = true →
          resolve (ι := ι) (τ := τ) api r target =
            Except.ok (ResolvedImpl.inherited m, ResolvedType.objectType)) ∧
        (m.truthy = false →
          resolve (ι := ι) (τ := τ) api r target =
            Except.error LookupErr.notFound))) := by
  refine ⟨?_, ?_, ?_, ?_⟩
  · intro s hs
    unfold resolve
    rw [hs]
  · intro listed hl
    unfold resolve
    rw [hl]
  · intro hnf hnone
    unfold resolve
    rw [hnf]
    unfold handle_not_found_lookup_error
    rw [hnone]
  · intro o hnf hsome
    constructor
    · intro hwalk
      unfold resolve
      rw [hnf]
      unfold handle_not_found_lookup_error
      simp only [hsome]
      rw [hwalk]
    · intro m hwalk
      constructor
      · intro htruthy
        unfold resolve
        rw [hnf]
        unfold handle_not_found_lookup_error
        simp only [hsome]
        rw [hwalk]
        simp [htruthy]
      · intro hfalsy
        unfold resolve
        rw [hnf]
        unfold handle_not_found_lookup_error
        simp only [hsome]
        rw [hwalk]
        simp [hfalsy]

/-- Counterexample to C4 as stated: resolution fails NotFound, the resolver
is owned, and the first applicable ancestor declares a non-abstract member
under the operation's name, yet `resolve` re-raises NotFound instead of
returning that member, because the member is falsy. -/
theorem claim_c4_counterexample :
    find_signature chainApi (ownedResolver [fbChild, fbClassFalsy])
      (Target.args 0) = Except.error LookupErr.notFound ∧
    (ownedResolver [fbChild, fbClassFalsy]).owner =
      some ⟨[fbChild, fbClassFalsy]⟩ ∧
    (PyOwner.mk [fbChild, fbClassFalsy]).mro.drop 1 = [fbClassFalsy] ∧
    ¬(fbClassFalsy.ident = objectId ∨ fbClassFalsy.ident = typeId) ∧
    fbClassFalsy.dict.lookup "f" = some fbMemberFalsy ∧
    fbMemberFalsy.isabstractmethod = false ∧
    resolve chainApi (ownedResolver [fbChild, fbClassFalsy])
      (Target.args 0) = Except.error LookupErr.notFound ∧
    resolve chainApi (ownedResolver [fbChild, fbClassFalsy])
      (Target.args 0) ≠
      Except.ok (ResolvedImpl.inherited fbMemberFalsy,
        ResolvedType.objectType) := by
  refine ⟨?_, ?_, ?_, ?_, ?_, ?_, ?_, ?_⟩
  · rfl
  · rfl
  · rfl
  · decide
  · rfl
  · rfl
  · rfl
  · intro h
    have h7 : resolve chainApi (ownedResolver [fbChild, fbClassFalsy])
        (Target.args 0) = Except.error LookupErr.notFound := by rfl
    rw [h7] at h
    exact Except.noConfusion h

/-- Witness for the amended C4: past an abstract ancestor, the first truthy
non-abstract declared member is returned with the unconstrained type. -/
theorem claim_c4_witness :
    find_signature chainApi
      (ownedResolver [fbChild, fbClassAbstract, fbClassTruthy])
      (Target.args 0) = Except.error LookupErr.notFound ∧
    (ownedResolver [fbChild, fbClassAbstract, fbClassTruthy]).owner =
      some ⟨[fbChild, fbClassAbstract, fbClassTruthy]⟩ ∧
    mroWalk "f" ([fbChild, fbClassAbstract, fbClassTruthy].drop 1) =
      some fbMemberTruthy ∧
    fbMemberTruthy.truthy = true ∧
    resolve chainApi (ownedResolver [fbChild, fbClassAbstract, fbClassTruthy])
      (Target.args 0) =
      Except.ok (ResolvedImpl.inherited fbMemberTruthy,
        ResolvedType.objectType) :=
  ⟨by rfl, by rfl, by rfl, by rfl,
    (((claim_c4_amended chainApi
        (ownedResolver [fbChild, fbClassAbstract, fbClassTruthy])
        (Target.args 0)).2.2.2
      ⟨[fbChild, fbClassAbstract, fbClassTruthy]⟩ (by rfl) (by rfl)).2
      fbMemberTruthy (by rfl)).1 (by rfl)⟩

/-- Claim C10: when the fallback's walk stops at a falsy non-abstract member
(after any run of skipped ancestors), `resolve` re-raises the original
NotFound instead of returning the member or trying later ancestors. -/
theorem claim_c10 {σ π ι τ : Type} (api : SigAPI σ π ι τ) (r : Resolver σ)
    (target : Target π σ) (o : PyOwner) (pre post : List PyClass)
    (c : PyClass) (m : PyMember)
    (hfind : find_signature api r target = Except.error LookupErr.notFound)
    (howner : r.owner = some o)
    (hmro : o.mro.drop 1 = pre ++ c :: post)
    (hpre : ∀ x ∈ pre, skippedClass r.function_name x)
    (hroot : ¬(c.ident = objectId ∨ c.ident = typeId))
    (hlook : c.dict.lookup r.function_name = some m)
    (habs : m.isabstractmethod = false)
    (hfalsy : m.truthy = false) :
    resolve (ι := ι) (τ := τ) api r target =
      Except.error LookupErr.notFound := by
  unfold resolve
  rw [hfind]
  unfold handle_not_found_lookup_error
  simp only [howner]
  rw [hmro, mroWalk_first pre c post m hpre hroot hlook habs]
  simp [hfalsy]

/-- Witness for C10: the walk skips an abstract ancestor, stops at the falsy
member, and re-raises NotFound although a later ancestor declares a truthy
member. -/
theorem claim_c10_witness :
    find_signature chainApi
      (ownedResolver [fbChild, fbClassAbstract, fbClassFalsy, fbClassTruthy])
      (Target.args 0) = Except.error LookupErr.notFound ∧
    (ownedResolver
        [fbChild, fbClassAbstract, fbClassFalsy, fbClassTruthy]).owner =
      some ⟨[fbChild, fbClassAbstract, fbClassFalsy, fbClassTruthy]⟩ ∧
    (PyOwner.mk
        [fbChild, fbClassAbstract, fbClassFalsy, fbClassTruthy]).mro.drop 1 =
      [fbClassAbstract] ++ fbClassFalsy :: [fbClassTruthy] ∧
    fbClassFalsy.dict.lookup "f" = some fbMemberFalsy ∧
    fbMemberFalsy.isabstractmethod = false ∧
    fbMemberFalsy.truthy = false ∧
    fbClassTruthy.dict.lookup "f" = some fbMemberTruthy ∧
    fbMemberTruthy.truthy = true ∧
    resolve chainApi
      (ownedResolver [fbChild, fbClassAbstract, fbClassFalsy, fbClassTruthy])
      (Target.args 0) = Except.error LookupErr.notFound :=
  ⟨by rfl, by rfl, by rfl, by rfl, by rfl, by rfl, by rfl, by rfl,
    claim_c10 chainApi
      (ownedResolver [fbChild, fbClassAbstract, fbClassFalsy, fbClassTruthy])
      (Target.args 0)
      ⟨[fbChild, fbClassAbstract, fbClassFalsy, fbClassTruthy]⟩
      [fbClassAbstract] [fbClassTruthy] fbClassFalsy fbMemberFalsy
      (by rfl) (by rfl) (by rfl)
      (by
        intro x hx
        rw [List.mem_singleton.mp hx]
        exact Or.inr (Or.inr ⟨fbMemberAbstract, rfl, rfl⟩))
      (by decide) (by rfl) (by rfl) (by rfl)⟩

end Plum
